import Mathlib

/-!
Verification of the demangler orchestration core (src/main.py, src/demangle.py).

The external c++filt process is modelled as an oracle `String → Option String`
(`none` = invocation failure, mirroring demangle_with_cxxfilt returning None).
Python regular-expression substitutions are embedded as character-list scans
that reproduce Python `re` semantics, including the fact that `.` does not
match a newline while negated classes such as `[^>]` and `[^(]` do.
Recursions that are not structural in the source are driven by a fuel
argument initialised to the input length; fuel exhaustion is unreachable for
the initial fuel, which keeps every definition kernel-computable.
-/

/-- Whitespace stripped by Python str.strip(): the CPython
Py_UNICODE_ISSPACE set — 0x09-0x0D, 0x1C-0x1F, space, NEL 0x85, NBSP 0xA0,
Ogham space 0x1680, the 0x2000-0x200A spaces, line and paragraph separators
0x2028/0x2029, narrow no-break space 0x202F, medium mathematical space
0x205F and ideographic space 0x3000. -/
def pyWs (c : Char) : Bool :=
  (0x09 ≤ c.toNat && c.toNat ≤ 0x0D) ||
  (0x1C ≤ c.toNat && c.toNat ≤ 0x1F) ||
  c.toNat == 0x20 || c.toNat == 0x85 || c.toNat == 0xA0 ||
  c.toNat == 0x1680 ||
  (0x2000 ≤ c.toNat && c.toNat ≤ 0x200A) ||
  c.toNat == 0x2028 || c.toNat == 0x2029 || c.toNat == 0x202F ||
  c.toNat == 0x205F || c.toNat == 0x3000

/-- Python str.strip(): drop whitespace from the front, then from the back. -/
def trimWs (l : List Char) : List Char :=
  ((l.dropWhile pyWs).reverse.dropWhile pyWs).reverse

/-- First-match association-list lookup (Python dict access on unique keys). -/
def lookupList (k : String) : List (String × α) → Option α
  | [] => none
  | p :: rest => if p.1 = k then some p.2 else lookupList k rest

/-- Backtracking tail for the greedy pattern `.*cl`: inside the maximal
newline-free prefix of the list, find the last occurrence of `cl` and return
what follows it.  Mirrors how Python `.*` (which cannot cross a newline)
backtracks to the last `cl`. -/
def greedyTail (cl : Char) : List Char → Option (List Char)
  | [] => none
  | c :: rest =>
    if c = '\n' then none
    else
      match greedyTail cl rest with
      | some r => some r
      | none => if c = cl then some rest else none

/-- One Python re.sub pass for the greedy pattern `op.*cl` (such as the
source's `\(.*\)` and `\[.*\]`): scan left to right; at each `op`, if the
greedy match succeeds, drop the matched span and continue after it,
otherwise keep the character.  `fuel` starts at the list length and never
runs out on those inputs. -/
def subGreedyF (op cl : Char) : Nat → List Char → List Char
  | 0, l => l
  | _ + 1, [] => []
  | fuel + 1, c :: rest =>
    if c = op then
      match greedyTail cl rest with
      | some r => subGreedyF op cl fuel r
      | none => c :: subGreedyF op cl fuel rest
    else c :: subGreedyF op cl fuel rest

/-- re.sub for a greedy delimited pattern, at its canonical fuel. -/
def subGreedy (op cl : Char) (l : List Char) : List Char :=
  subGreedyF op cl l.length l

/-- Tail for the pattern `[^cl]*cl`: everything after the first `cl`
(negated classes do cross newlines in Python). -/
def firstTail (cl : Char) : List Char → Option (List Char)
  | [] => none
  | c :: rest => if c = cl then some rest else firstTail cl rest

/-- One Python re.sub pass for the non-greedy-shaped pattern `op[^cl]*cl`
(the source's `<[^>]*>`): each `op` is matched to the first following `cl`. -/
def subFirstF (op cl : Char) : Nat → List Char → List Char
  | 0, l => l
  | _ + 1, [] => []
  | fuel + 1, c :: rest =>
    if c = op then
      match firstTail cl rest with
      | some r => subFirstF op cl fuel r
      | none => c :: subFirstF op cl fuel rest
    else c :: subFirstF op cl fuel rest

/-- re.sub for a first-match delimited pattern, at its canonical fuel. -/
def subFirst (op cl : Char) (l : List Char) : List Char :=
  subFirstF op cl l.length l

/-- Stage 2 of get_bare_function_name: re.sub(r'\(.*\)', '', s)
(src/demangle.py line 64). -/
def subParens (l : List Char) : List Char := subGreedy '(' ')' l

/-- Stage 3 of get_bare_function_name: re.sub(r'<[^>]*>', '', s)
(src/demangle.py line 67). -/
def subAngle (l : List Char) : List Char := subFirst '<' '>' l

/-- Stage 4 of get_bare_function_name: re.sub(r'\[.*\]', '', s)
(src/demangle.py line 70). -/
def subBrackets (l : List Char) : List Char := subGreedy '[' ']' l

/-- Modelled from the spec's words for stage 2 (claim C2): remove every
maximal substring delimited by a literal parenthesis pair, matching each
opening parenthesis to the first following closing one (non-nested). -/
def specStripParens (l : List Char) : List Char := subFirst '(' ')' l

/-- Modelled from the spec's words for stage 4 (claim C2): remove every
maximal bracket-delimited substring, first bracket to first following
closing bracket. -/
def specStripBrackets (l : List Char) : List Char := subFirst '[' ']' l

/-- Group extractor for re.search(r'.*::([^(]+)', s) within one newline-free
segment: find the last "::" (greedy `.*` prefers the rightmost) that is
followed by at least one character other than an opening parenthesis, and
return group(1), the maximal following run of non-'(' characters (which may
cross newlines).  Returns none when the segment has no such match. -/
def qualTail : List Char → Option (List Char)
  | [] => none
  | c :: rest =>
    if c = '\n' then none
    else
      match qualTail rest with
      | some r => some r
      | none =>
        match rest with
        | c2 :: d :: r2 =>
          if c = ':' ∧ c2 = ':' ∧ d ≠ '(' then
            some ((d :: r2).takeWhile (fun x => x != '('))
          else none
        | _ => none

/-- Everything after the first newline, or none when there is no newline. -/
def dropNl : List Char → Option (List Char)
  | [] => none
  | c :: rest => if c = '\n' then some rest else dropNl rest

/-- re.search(r'.*::([^(]+)', s).group(1) (src/demangle.py line 57): try the
current newline-free segment; if it has no match, continue after its
newline. -/
def searchQualF : Nat → List Char → Option (List Char)
  | 0, _ => none
  | fuel + 1, l =>
    match qualTail l with
    | some r => some r
    | none =>
      match dropNl l with
      | some l2 => searchQualF fuel l2
      | none => none

/-- Stage 1 of get_bare_function_name at its canonical fuel. -/
def searchQual (l : List Char) : Option (List Char) :=
  searchQualF l.length l

/-- Stages 2, 3 and 4 of get_bare_function_name followed by the whitespace
trim (src/demangle.py lines 63-73). -/
def stages234 (l : List Char) : List Char :=
  trimWs (subBrackets (subAngle (subParens l)))

/-- The full four-stage reduction of a demangled name, before the
empty-string fallback (src/demangle.py lines 54-73). -/
def bareStages (demangled : String) : List Char :=
  stages234 ((searchQual demangled.data).getD demangled.data)

/-- Bare-name reduction including the empty-string fallback
(src/demangle.py lines 76-79): an empty reduction falls back to the
demangled name itself. -/
def bareReduce (demangled : String) : String :=
  if bareStages demangled = [] then demangled else String.mk (bareStages demangled)

/-- get_bare_function_name (src/demangle.py lines 29-79).  The internal call
to demangle_with_cxxfilt is supplied as its result: `none` models a failed
invocation, in which case the raw mangled symbol is used (lines 46-48).
Note the source returns a PAIR (demangled, bare_name). -/
def get_bare_function_name (demangled? : Option String) (mangled_symbol : String) :
    String × String :=
  let demangled := demangled?.getD mangled_symbol
  (demangled, bareReduce demangled)

/-- Result type of process_entry: the source returns either (None, None) or
(demangled_str, pair_returned_by_get_bare_function_name). -/
abbrev EntryResult : Type := Option String × Option (String × String)

/-- process_entry (src/main.py lines 20-33).  `cxxfilt` is the external
demangling primitive; `none` input models an absent (falsy) function name.
The source calls the primitive once directly and once inside
get_bare_function_name; both see the same oracle answer.  Note line 31
stores the whole tuple returned by get_bare_function_name. -/
def process_entry (cxxfilt : String → Option String) (function_name : Option String) :
    EntryResult :=
  match function_name with
  | none => (none, none)
  | some fn =>
    if fn = "" then (none, none)
    else
      let demangled := (cxxfilt fn).getD fn
      (some demangled, some (get_bare_function_name (cxxfilt fn) fn))

/-- process_batch (src/main.py lines 35-52): each (key, function_name) item
is processed by process_entry and collected keyed by its key.  The embedded
process_entry is total, so the per-future exception branch (line 50) is
unreachable here; completion order is treated in claim C9. -/
def process_batch (cxxfilt : String → Option String) (batch : List (String × String)) :
    List (String × EntryResult) :=
  batch.map (fun kv => (kv.1, process_entry cxxfilt (some kv.2)))

/-- One JSON record: the raw symbol (absent or empty means ineligible) and
the two derived fields added by the merge step. -/
structure Entry where
  function_name : Option String
  demangled_name : Option String
  bare_name : Option (String × String)
deriving DecidableEq

/-- Extraction of eligible work items (src/main.py lines 102-105): records
whose function_name is present and non-empty, as (key, symbol) pairs. -/
def entriesToProcess (mapping : List (String × Entry)) : List (String × String) :=
  mapping.filterMap (fun kv =>
    match kv.2.function_name with
    | some fn => if fn = "" then none else some (kv.1, fn)
    | none => none)

/-- Batch size computation (src/main.py line 113):
max(10, total_entries // (NUM_PROCESSES * 4)). -/
def computeBatchSize (total P : Nat) : Nat :=
  max 10 (total / (P * 4))

/-- Contiguous slicing (src/main.py line 114):
[entries[i:i+batch_size] for i in range(0, len(entries), batch_size)].
Fuel starts at the list length; with a positive batch size (it is always at
least 10 here) the fuel never runs out.  A zero batch size would raise in
Python and is cut off by the fuel. -/
def makeBatchesF (bs : Nat) : Nat → List α → List (List α)
  | 0, _ => []
  | _ + 1, [] => []
  | fuel + 1, l => l.take bs :: makeBatchesF bs fuel (l.drop bs)

/-- Batch partition at its canonical fuel. -/
def makeBatches (bs : Nat) (l : List α) : List (List α) :=
  makeBatchesF bs l.length l

/-- The empty global result map (src/main.py line 117). -/
def emptyResults : String → Option EntryResult := fun _ => none

/-- Python dict.update of one batch result map into the global map
(src/main.py line 130): keys of the batch override, other keys keep their
previous binding. -/
def dictUpdate (m : String → Option EntryResult) (br : List (String × EntryResult)) :
    String → Option EntryResult :=
  fun k =>
    match lookupList k br with
    | some v => some v
    | none => m k

/-- Accumulation of per-batch result maps into the global result map, in a
given completion order (src/main.py lines 126-131). -/
def accumulate (bs : List (List (String × EntryResult))) : String → Option EntryResult :=
  bs.foldl dictUpdate emptyResults

/-- One iteration of the result-collection loop (src/main.py lines 126-134):
a batch whose executor returns a result map is merged into the global map;
a batch whose pool task raises (exec = none) only advances the progress
counter (line 134) and the loop continues. -/
def collectStep (exec : List (String × String) → Option (List (String × EntryResult)))
    (acc : (String → Option EntryResult) × Nat) (batch : List (String × String)) :
    (String → Option EntryResult) × Nat :=
  match exec batch with
  | some br => (dictUpdate acc.1 br, acc.2 + batch.length)
  | none => (acc.1, acc.2 + batch.length)

/-- The full result-collection loop over all batches, from the empty map and
a zero progress counter. -/
def collectBatchResults
    (exec : List (String × String) → Option (List (String × EntryResult)))
    (batches : List (List (String × String))) : (String → Option EntryResult) × Nat :=
  batches.foldl (collectStep exec) (emptyResults, 0)

/-- Merge of one record with the global result map (src/main.py lines
138-143): when the key is present with a non-failure result (first component
not None), both derived fields are written; otherwise the record passes
through unchanged. -/
def mergeEntry (results : List (String × EntryResult)) (kv : String × Entry) :
    String × Entry :=
  match lookupList kv.1 results with
  | some r =>
    if r.1.isSome then
      (kv.1, { kv.2 with demangled_name := r.1, bare_name := r.2 })
    else kv
  | none => kv

/-- The merge step over the whole record collection (src/main.py lines
136-143): every record is visited once, in place. -/
def updateMapping (results : List (String × EntryResult))
    (mapping : List (String × Entry)) : List (String × Entry) :=
  mapping.map (mergeEntry results)

/-- The canonical batch-result sequence produced by the orchestrator in
submission order (src/main.py lines 112-123): partition the eligible items,
then run each batch through process_batch. -/
def orchestratorBatches (cxxfilt : String → Option String)
    (mapping : List (String × Entry)) (P : Nat) :
    List (List (String × EntryResult)) :=
  (makeBatches (computeBatchSize (entriesToProcess mapping).length P)
    (entriesToProcess mapping)).map (process_batch cxxfilt)

/-! ### Basic facts about the regex scanners -/

theorem greedyTail_length (cl : Char) :
    ∀ l r : List Char, greedyTail cl l = some r → r.length < l.length := by
  intro l
  induction l with
  | nil => intro r h; simp [greedyTail] at h
  | cons c rest ih =>
    intro r h
    simp only [greedyTail] at h
    by_cases hnl : c = '\n'
    · simp [hnl] at h
    · simp only [hnl, if_false] at h
      cases hg : greedyTail cl rest with
      | some r2 =>
        rw [hg] at h
        cases h
        exact Nat.lt_trans (ih _ hg) (Nat.lt_succ_self _)
      | none =>
        rw [hg] at h
        by_cases hc : c = cl
        · simp [hc] at h
          cases h
          exact Nat.lt_succ_self _
        · simp [hc] at h

theorem greedyTail_sublist (cl : Char) :
    ∀ l r : List Char, greedyTail cl l = some r → r.Sublist l := by
  intro l
  induction l with
  | nil => intro r h; simp [greedyTail] at h
  | cons c rest ih =>
    intro r h
    simp only [greedyTail] at h
    by_cases hnl : c = '\n'
    · simp [hnl] at h
    · simp only [hnl, if_false] at h
      cases hg : greedyTail cl rest with
      | some r2 =>
        rw [hg] at h
        cases h
        exact (ih _ hg).trans (List.sublist_cons_self _ _)
      | none =>
        rw [hg] at h
        by_cases hc : c = cl
        · simp [hc] at h
          cases h
          exact List.sublist_cons_self _ _
        · simp [hc] at h

theorem greedyTail_mem (cl : Char) :
    ∀ l r : List Char, greedyTail cl l = some r → cl ∈ l := by
  intro l
  induction l with
  | nil => intro r h; simp [greedyTail] at h
  | cons c rest ih =>
    intro r h
    simp only [greedyTail] at h
    by_cases hnl : c = '\n'
    · simp [hnl] at h
    · simp only [hnl, if_false] at h
      cases hg : greedyTail cl rest with
      | some r2 => exact List.mem_cons_of_mem _ (ih r2 hg)
      | none =>
        rw [hg] at h
        by_cases hc : c = cl
        · simp [hc]
        · simp [hc] at h

theorem greedyTail_of_not_mem (cl : Char) (l : List Char) (h : cl ∉ l) :
    greedyTail cl l = none := by
  cases hg : greedyTail cl l with
  | none => rfl
  | some r => exact absurd (greedyTail_mem cl l r hg) h

theorem greedyTail_isSome (cl : Char) :
    ∀ l : List Char, '\n' ∉ l → cl ∈ l → (greedyTail cl l).isSome = true := by
  intro l
  induction l with
  | nil => intro _ h; simp at h
  | cons c rest ih =>
    intro hnl hm
    have hc : c ≠ '\n' := by rintro rfl; exact hnl (List.mem_cons_self _ _)
    have hnr : '\n' ∉ rest := fun m => hnl (List.mem_cons_of_mem _ m)
    simp only [greedyTail, hc, if_false]
    cases hg : greedyTail cl rest with
    | some r2 => rfl
    | none =>
      have : cl = c := by
        rcases List.mem_cons.mp hm with h1 | h2
        · exact h1
        · have := ih hnr h2; rw [hg] at this; simp at this
      simp [this.symm]

theorem firstTail_length (cl : Char) :
    ∀ l r : List Char, firstTail cl l = some r → r.length < l.length := by
  intro l
  induction l with
  | nil => intro r h; simp [firstTail] at h
  | cons c rest ih =>
    intro r h
    simp only [firstTail] at h
    by_cases hc : c = cl
    · simp [hc] at h; cases h; exact Nat.lt_succ_self _
    · simp only [hc, if_false] at h
      exact Nat.lt_trans (ih r h) (Nat.lt_succ_self _)

theorem firstTail_sublist (cl : Char) :
    ∀ l r : List Char, firstTail cl l = some r → r.Sublist l := by
  intro l
  induction l with
  | nil => intro r h; simp [firstTail] at h
  | cons c rest ih =>
    intro r h
    simp only [firstTail] at h
    by_cases hc : c = cl
    · simp [hc] at h; cases h; exact List.sublist_cons_self _ _
    · simp only [hc, if_false] at h
      exact (ih r h).trans (List.sublist_cons_self _ _)

theorem firstTail_mem (cl : Char) :
    ∀ l r : List Char, firstTail cl l = some r → cl ∈ l := by
  intro l
  induction l with
  | nil => intro r h; simp [firstTail] at h
  | cons c rest ih =>
    intro r h
    simp only [firstTail] at h
    by_cases hc : c = cl
    · simp [hc]
    · simp only [hc, if_false] at h
      exact List.mem_cons_of_mem _ (ih r h)

theorem firstTail_of_not_mem (cl : Char) (l : List Char) (h : cl ∉ l) :
    firstTail cl l = none := by
  cases hg : firstTail cl l with
  | none => rfl
  | some r => exact absurd (firstTail_mem cl l r hg) h

theorem firstTail_isSome (cl : Char) :
    ∀ l : List Char, cl ∈ l → (firstTail cl l).isSome = true := by
  intro l
  induction l with
  | nil => intro h; simp at h
  | cons c rest ih =>
    intro hm
    simp only [firstTail]
    by_cases hc : c = cl
    · simp [hc]
    · simp only [hc, if_false]
      rcases List.mem_cons.mp hm with h1 | h2
      · exact absurd h1.symm hc
      · exact ih h2

theorem subGreedyF_fuel (op cl : Char) :
    ∀ f1 : Nat, ∀ f2 : Nat, ∀ l : List Char, l.length ≤ f1 → l.length ≤ f2 →
      subGreedyF op cl f1 l = subGreedyF op cl f2 l := by
  intro f1
  induction f1 with
  | zero =>
    intro f2 l h1 _
    have : l = [] := List.eq_nil_of_length_eq_zero (Nat.le_zero.mp h1)
    subst this
    cases f2 <;> rfl
  | succ f ih =>
    intro f2 l h1 h2
    cases l with
    | nil => cases f2 <;> rfl
    | cons c rest =>
      cases f2 with
      | zero => simp at h2
      | succ g =>
        simp only [subGreedyF]
        have hr1 : rest.length ≤ f := Nat.le_of_succ_le_succ h1
        have hr2 : rest.length ≤ g := Nat.le_of_succ_le_succ h2
        by_cases hc : c = op
        · simp only [hc, if_pos rfl]
          cases hg : greedyTail cl rest with
          | some r =>
            have hl := greedyTail_length cl rest r hg
            exact ih g r (Nat.le_trans (Nat.le_of_lt hl) hr1)
              (Nat.le_trans (Nat.le_of_lt hl) hr2)
          | none => rw [ih g rest hr1 hr2]
        · simp only [hc, if_false]
          rw [ih g rest hr1 hr2]

theorem subGreedy_nil (op cl : Char) : subGreedy op cl [] = [] := rfl

theorem subGreedy_cons_pos (op cl : Char) (rest r : List Char)
    (h : greedyTail cl rest = some r) :
    subGreedy op cl (op :: rest) = subGreedy op cl r := by
  have hl : r.length ≤ rest.length := Nat.le_of_lt (greedyTail_length cl rest r h)
  simp only [subGreedy, List.length_cons, subGreedyF, if_pos rfl, h]
  exact subGreedyF_fuel op cl rest.length r.length r hl (Nat.le_refl _)

theorem subGreedy_cons_none (op cl : Char) (rest : List Char)
    (h : greedyTail cl rest = none) :
    subGreedy op cl (op :: rest) = op :: subGreedy op cl rest := by
  simp only [subGreedy, List.length_cons, subGreedyF, if_pos rfl, h, if_true]

theorem subGreedy_cons_other (op cl c : Char) (rest : List Char) (h : c ≠ op) :
    subGreedy op cl (c :: rest) = c :: subGreedy op cl rest := by
  simp only [subGreedy, List.length_cons, subGreedyF, h, if_false]

theorem subFirstF_fuel (op cl : Char) :
    ∀ f1 : Nat, ∀ f2 : Nat, ∀ l : List Char, l.length ≤ f1 → l.length ≤ f2 →
      subFirstF op cl f1 l = subFirstF op cl f2 l := by
  intro f1
  induction f1 with
  | zero =>
    intro f2 l h1 _
    have : l = [] := List.eq_nil_of_length_eq_zero (Nat.le_zero.mp h1)
    subst this
    cases f2 <;> rfl
  | succ f ih =>
    intro f2 l h1 h2
    cases l with
    | nil => cases f2 <;> rfl
    | cons c rest =>
      cases f2 with
      | zero => simp at h2
      | succ g =>
        simp only [subFirstF]
        have hr1 : rest.length ≤ f := Nat.le_of_succ_le_succ h1
        have hr2 : rest.length ≤ g := Nat.le_of_succ_le_succ h2
        by_cases hc : c = op
        · simp only [hc, if_pos rfl]
          cases hg : firstTail cl rest with
          | some r =>
            have hl := firstTail_length cl rest r hg
            exact ih g r (Nat.le_trans (Nat.le_of_lt hl) hr1)
              (Nat.le_trans (Nat.le_of_lt hl) hr2)
          | none => rw [ih g rest hr1 hr2]
        · simp only [hc, if_false]
          rw [ih g rest hr1 hr2]

theorem subFirst_nil (op cl : Char) : subFirst op cl [] = [] := rfl

theorem subFirst_cons_pos (op cl : Char) (rest r : List Char)
    (h : firstTail cl rest = some r) :
    subFirst op cl (op :: rest) = subFirst op cl r := by
  have hl : r.length ≤ rest.length := Nat.le_of_lt (firstTail_length cl rest r h)
  simp only [subFirst, List.length_cons, subFirstF, if_pos rfl, h]
  exact subFirstF_fuel op cl rest.length r.length r hl (Nat.le_refl _)

theorem subFirst_cons_none (op cl : Char) (rest : List Char)
    (h : firstTail cl rest = none) :
    subFirst op cl (op :: rest) = op :: subFirst op cl rest := by
  simp only [subFirst, List.length_cons, subFirstF, if_pos rfl, h, if_true]

theorem subFirst_cons_other (op cl c : Char) (rest : List Char) (h : c ≠ op) :
    subFirst op cl (c :: rest) = c :: subFirst op cl rest := by
  simp only [subFirst, List.length_cons, subFirstF, h, if_false]

theorem pair_sublist_cons {x y c : Char} {t : List Char}
    (h : [x, y].Sublist (c :: t)) : [x, y].Sublist t ∨ (x = c ∧ y ∈ t) := by
  cases h with
  | cons _ h2 => exact Or.inl h2
  | cons₂ _ h2 => exact Or.inr ⟨rfl, List.singleton_sublist.mp h2⟩

theorem subGreedyF_sublist (op cl : Char) :
    ∀ fuel : Nat, ∀ l : List Char, l.length ≤ fuel →
      (subGreedyF op cl fuel l).Sublist l := by
  intro fuel
  induction fuel with
  | zero => intro l _; exact List.Sublist.refl l
  | succ f ih =>
    intro l hlen
    cases l with
    | nil => exact List.Sublist.refl _
    | cons c rest =>
      have hr : rest.length ≤ f := Nat.le_of_succ_le_succ hlen
      simp only [subGreedyF]
      by_cases hc : c = op
      · subst hc
        simp only [if_pos rfl]
        cases hg : greedyTail cl rest with
        | some r =>
          have hlt := greedyTail_length cl rest r hg
          exact ((ih r (Nat.le_trans (Nat.le_of_lt hlt) hr)).trans
            (greedyTail_sublist cl rest r hg)).trans (List.sublist_cons_self _ _)
        | none => exact List.Sublist.cons₂ _ (ih rest hr)
      · simp only [hc, if_false]
        exact List.Sublist.cons₂ _ (ih rest hr)

theorem subGreedyF_fix (op cl : Char) :
    ∀ fuel : Nat, ∀ t : List Char, ¬ ([op, cl].Sublist t) →
      subGreedyF op cl fuel t = t := by
  intro fuel
  induction fuel with
  | zero => intro t _; rfl
  | succ f ih =>
    intro t h
    cases t with
    | nil => rfl
    | cons c rest =>
      have hrest : ¬ ([op, cl].Sublist rest) := fun hh => h (List.Sublist.cons c hh)
      simp only [subGreedyF]
      by_cases hc : c = op
      · subst hc
        simp only [if_pos rfl]
        cases hg : greedyTail cl rest with
        | some r =>
          exact absurd (List.Sublist.cons₂ _
            (List.singleton_sublist.mpr (greedyTail_mem cl rest r hg))) h
        | none => simp [ih rest hrest]
      · simp [hc, ih rest hrest]

theorem subGreedyF_inv (op cl : Char) :
    ∀ fuel : Nat, ∀ l : List Char, l.length ≤ fuel → '\n' ∉ l →
      ¬ ([op, cl].Sublist (subGreedyF op cl fuel l)) := by
  intro fuel
  induction fuel with
  | zero =>
    intro l hlen _
    have : l = [] := List.eq_nil_of_length_eq_zero (Nat.le_zero.mp hlen)
    subst this
    simp [subGreedyF]
  | succ f ih =>
    intro l hlen hnl
    cases l with
    | nil => simp [subGreedyF]
    | cons c rest =>
      have hr : rest.length ≤ f := Nat.le_of_succ_le_succ hlen
      have hcnl : c ≠ '\n' := by rintro rfl; exact hnl (List.mem_cons_self _ _)
      have hnr : '\n' ∉ rest := fun m => hnl (List.mem_cons_of_mem _ m)
      simp only [subGreedyF]
      by_cases hc : c = op
      · subst hc
        simp only [if_pos rfl]
        cases hg : greedyTail cl rest with
        | some r =>
          have hlt := greedyTail_length cl rest r hg
          exact ih r (Nat.le_trans (Nat.le_of_lt hlt) hr)
            (fun m => hnr ((greedyTail_sublist cl rest r hg).subset m))
        | none =>
          intro hh
          rcases pair_sublist_cons hh with h2 | ⟨_, hmem⟩
          · exact ih rest hr hnr h2
          · have hcl : cl ∈ rest :=
              (subGreedyF_sublist _ cl f rest hr).subset hmem
            have := greedyTail_isSome cl rest hnr hcl
            rw [hg] at this
            simp at this
      · simp only [hc, if_false]
        intro hh
        rcases pair_sublist_cons hh with h2 | ⟨he, _⟩
        · exact ih rest hr hnr h2
        · exact hc he.symm

theorem subFirstF_sublist (op cl : Char) :
    ∀ fuel : Nat, ∀ l : List Char, l.length ≤ fuel →
      (subFirstF op cl fuel l).Sublist l := by
  intro fuel
  induction fuel with
  | zero => intro l _; exact List.Sublist.refl l
  | succ f ih =>
    intro l hlen
    cases l with
    | nil => exact List.Sublist.refl _
    | cons c rest =>
      have hr : rest.length ≤ f := Nat.le_of_succ_le_succ hlen
      simp only [subFirstF]
      by_cases hc : c = op
      · subst hc
        simp only [if_pos rfl]
        cases hg : firstTail cl rest with
        | some r =>
          have hlt := firstTail_length cl rest r hg
          exact ((ih r (Nat.le_trans (Nat.le_of_lt hlt) hr)).trans
            (firstTail_sublist cl rest r hg)).trans (List.sublist_cons_self _ _)
        | none => exact List.Sublist.cons₂ _ (ih rest hr)
      · simp only [hc, if_false]
        exact List.Sublist.cons₂ _ (ih rest hr)

theorem subFirstF_fix (op cl : Char) :
    ∀ fuel : Nat, ∀ t : List Char, ¬ ([op, cl].Sublist t) →
      subFirstF op cl fuel t = t := by
  intro fuel
  induction fuel with
  | zero => intro t _; rfl
  | succ f ih =>
    intro t h
    cases t with
    | nil => rfl
    | cons c rest =>
      have hrest : ¬ ([op, cl].Sublist rest) := fun hh => h (List.Sublist.cons c hh)
      simp only [subFirstF]
      by_cases hc : c = op
      · subst hc
        simp only [if_pos rfl]
        cases hg : firstTail cl rest with
        | some r =>
          exact absurd (List.Sublist.cons₂ _
            (List.singleton_sublist.mpr (firstTail_mem cl rest r hg))) h
        | none => simp [ih rest hrest]
      · simp [hc, ih rest hrest]

theorem subFirstF_inv (op cl : Char) :
    ∀ fuel : Nat, ∀ l : List Char, l.length ≤ fuel →
      ¬ ([op, cl].Sublist (subFirstF op cl fuel l)) := by
  intro fuel
  induction fuel with
  | zero =>
    intro l hlen
    have : l = [] := List.eq_nil_of_length_eq_zero (Nat.le_zero.mp hlen)
    subst this
    simp [subFirstF]
  | succ f ih =>
    intro l hlen
    cases l with
    | nil => simp [subFirstF]
    | cons c rest =>
      have hr : rest.length ≤ f := Nat.le_of_succ_le_succ hlen
      simp only [subFirstF]
      by_cases hc : c = op
      · subst hc
        simp only [if_pos rfl]
        cases hg : firstTail cl rest with
        | some r =>
          have hlt := firstTail_length cl rest r hg
          exact ih r (Nat.le_trans (Nat.le_of_lt hlt) hr)
        | none =>
          intro hh
          rcases pair_sublist_cons hh with h2 | ⟨_, hmem⟩
          · exact ih rest hr h2
          · have hcl : cl ∈ rest :=
              (subFirstF_sublist _ cl f rest hr).subset hmem
            have := firstTail_isSome cl rest hcl
            rw [hg] at this
            simp at this
      · simp only [hc, if_false]
        intro hh
        rcases pair_sublist_cons hh with h2 | ⟨he, _⟩
        · exact ih rest hr h2
        · exact hc he.symm

theorem subGreedy_sublist (op cl : Char) (l : List Char) :
    (subGreedy op cl l).Sublist l :=
  subGreedyF_sublist op cl l.length l (Nat.le_refl _)

theorem subGreedy_fix (op cl : Char) (t : List Char)
    (h : ¬ ([op, cl].Sublist t)) : subGreedy op cl t = t :=
  subGreedyF_fix op cl t.length t h

theorem subGreedy_inv (op cl : Char) (l : List Char) (h : '\n' ∉ l) :
    ¬ ([op, cl].Sublist (subGreedy op cl l)) :=
  subGreedyF_inv op cl l.length l (Nat.le_refl _) h

theorem subFirst_sublist (op cl : Char) (l : List Char) :
    (subFirst op cl l).Sublist l :=
  subFirstF_sublist op cl l.length l (Nat.le_refl _)

theorem subFirst_fix (op cl : Char) (t : List Char)
    (h : ¬ ([op, cl].Sublist t)) : subFirst op cl t = t :=
  subFirstF_fix op cl t.length t h

theorem subFirst_inv (op cl : Char) (l : List Char) :
    ¬ ([op, cl].Sublist (subFirst op cl l)) :=
  subFirstF_inv op cl l.length l (Nat.le_refl _)

theorem subGreedy_of_not_mem_op (op cl : Char) (t : List Char) (h : op ∉ t) :
    subGreedy op cl t = t :=
  subGreedy_fix op cl t (fun hh => h (hh.subset (List.mem_cons_self _ _)))

theorem subGreedy_of_not_mem_cl (op cl : Char) (t : List Char) (h : cl ∉ t) :
    subGreedy op cl t = t :=
  subGreedy_fix op cl t
    (fun hh => h (hh.subset (List.mem_cons_of_mem _ (List.mem_cons_self _ _))))

theorem subFirst_of_not_mem_op (op cl : Char) (t : List Char) (h : op ∉ t) :
    subFirst op cl t = t :=
  subFirst_fix op cl t (fun hh => h (hh.subset (List.mem_cons_self _ _)))

/-! ### Whitespace trimming -/

theorem dropWhile_head_false (p : Char → Bool) :
    ∀ l : List Char, ∀ c : Char, ∀ t : List Char,
      List.dropWhile p l = c :: t → p c = false := by
  intro l
  induction l with
  | nil => intro c t h; simp at h
  | cons x xs ih =>
    intro c t h
    rw [List.dropWhile_cons] at h
    by_cases hx : p x = true
    · rw [if_pos hx] at h
      exact ih c t h
    · rw [if_neg hx] at h
      cases h
      exact Bool.eq_false_iff.mpr hx

theorem dropWhile_self_idem (p : Char → Bool) (l : List Char) :
    List.dropWhile p (List.dropWhile p l) = List.dropWhile p l := by
  cases h : List.dropWhile p l with
  | nil => rfl
  | cons c t =>
    rw [List.dropWhile_cons, dropWhile_head_false p l c t h]
    simp

theorem dropWhile_eq_self (p : Char → Bool) (l : List Char)
    (h : ∀ c ∈ l, p c = false) : List.dropWhile p l = l := by
  cases l with
  | nil => rfl
  | cons c rest => simp [List.dropWhile_cons, h c (List.mem_cons_self _ _)]

theorem trimWs_sublist (l : List Char) : (trimWs l).Sublist l := by
  have h1 : (List.dropWhile pyWs l).Sublist l := List.dropWhile_sublist pyWs
  have h2 : (List.dropWhile pyWs (List.dropWhile pyWs l).reverse).Sublist
      (List.dropWhile pyWs l).reverse := List.dropWhile_sublist pyWs
  have h3 := h2.reverse
  rw [List.reverse_reverse] at h3
  exact (h3.trans h1)

theorem trimWs_head_clean (l : List Char) :
    List.dropWhile pyWs (trimWs l) = trimWs l := by
  cases hz : trimWs l with
  | nil => rfl
  | cons c t =>
    have hhead : (trimWs l).head? = some c := by rw [hz]; rfl
    rw [trimWs] at hhead
    rw [List.head?_reverse] at hhead
    set m := List.dropWhile pyWs l with hm
    have hzne : List.dropWhile pyWs m.reverse ≠ [] := by
      intro he
      rw [trimWs, ← hm, he] at hz
      simp at hz
    obtain ⟨pre, hpre⟩ := (List.dropWhile_suffix pyWs :
      List.dropWhile pyWs m.reverse <:+ m.reverse)
    have hlast : (List.dropWhile pyWs m.reverse).getLast? = m.reverse.getLast? := by
      conv_rhs => rw [← hpre]
      rw [List.getLast?_append_of_ne_nil pre hzne]
    rw [hlast, List.getLast?_reverse] at hhead
    cases hmc : m with
    | nil => rw [hmc] at hhead; simp at hhead
    | cons d u =>
      rw [hmc] at hhead
      simp only [List.head?] at hhead
      cases hhead
      have hd : pyWs c = false :=
        dropWhile_head_false pyWs l c u (hm.symm.trans hmc)
      rw [List.dropWhile_cons, hd]
      simp

theorem trimWs_idem (l : List Char) : trimWs (trimWs l) = trimWs l := by
  conv_lhs => rw [trimWs, trimWs_head_clean l]
  rw [trimWs, List.reverse_reverse, dropWhile_self_idem]

theorem trimWs_of_no_ws (l : List Char) (h : ∀ c ∈ l, pyWs c = false) :
    trimWs l = l := by
  rw [trimWs, dropWhile_eq_self pyWs l h,
    dropWhile_eq_self pyWs l.reverse (fun c m => h c (List.mem_reverse.mp m)),
    List.reverse_reverse]

/-! ### Span removal for the greedy substitution (claim C2) -/

theorem greedyTail_append (cl : Char) (hcl : cl ≠ '\n') :
    ∀ b c : List Char, '\n' ∉ b → cl ∉ c →
      greedyTail cl (b ++ cl :: c) = some c := by
  intro b
  induction b with
  | nil =>
    intro c _ hc
    simp [greedyTail, hcl, greedyTail_of_not_mem cl c hc]
  | cons x b' ih =>
    intro c hnb hc
    have hx : x ≠ '\n' := by rintro rfl; exact hnb (List.mem_cons_self _ _)
    have hnb' : '\n' ∉ b' := fun m => hnb (List.mem_cons_of_mem _ m)
    simp [greedyTail, hx, ih c hnb' hc]

theorem subGreedy_append_left (op cl : Char) :
    ∀ a r : List Char, op ∉ a →
      subGreedy op cl (a ++ r) = a ++ subGreedy op cl r := by
  intro a
  induction a with
  | nil => intro r _; simp
  | cons x a' ih =>
    intro r ha
    have hx : x ≠ op := by rintro rfl; exact ha (List.mem_cons_self _ _)
    have ha' : op ∉ a' := fun m => ha (List.mem_cons_of_mem _ m)
    rw [List.cons_append, subGreedy_cons_other op cl x _ hx, ih r ha',
      List.cons_append]

theorem subGreedy_removes_span (op cl : Char) (hcl : cl ≠ '\n')
    (a b c : List Char) (ha : op ∉ a) (hb : '\n' ∉ b) (hc : cl ∉ c) :
    subGreedy op cl (a ++ op :: (b ++ cl :: c)) = a ++ c := by
  rw [subGreedy_append_left op cl a _ ha,
    subGreedy_cons_pos op cl _ c (greedyTail_append cl hcl b c hb hc),
    subGreedy_of_not_mem_cl op cl c hc]

/-! ### Association-list lookups and result-map accumulation -/

theorem lookupList_mem {α : Type} (k : String) :
    ∀ l : List (String × α), ∀ v : α,
      lookupList k l = some v → k ∈ l.map Prod.fst := by
  intro l
  induction l with
  | nil => intro v h; simp [lookupList] at h
  | cons p rest ih =>
    intro v h
    simp only [lookupList] at h
    by_cases hp : p.1 = k
    · simp [hp]
    · simp only [hp, if_false] at h
      exact List.mem_cons_of_mem _ (ih v h)

theorem lookupList_append {α : Type} (k : String) :
    ∀ xs ys : List (String × α),
      lookupList k (xs ++ ys) =
        match lookupList k xs with
        | some v => some v
        | none => lookupList k ys := by
  intro xs ys
  induction xs with
  | nil => rfl
  | cons p rest ih =>
    simp only [List.cons_append, lookupList]
    by_cases hp : p.1 = k
    · simp [hp]
    · simp [hp, ih]

theorem lookupList_perm {α : Type} (k : String) :
    ∀ l1 l2 : List (String × α), l1.Perm l2 → (l1.map Prod.fst).Nodup →
      lookupList k l1 = lookupList k l2 := by
  intro l1 l2 hp
  induction hp with
  | nil => intro _; rfl
  | cons x p ih =>
    intro hnd
    simp only [List.map_cons, List.nodup_cons] at hnd
    simp only [lookupList]
    by_cases hx : x.1 = k
    · simp [hx]
    · simp only [hx, if_false]
      exact ih hnd.2
  | swap x y l =>
    intro hnd
    simp only [List.map_cons, List.nodup_cons, List.mem_cons] at hnd
    simp only [lookupList]
    by_cases hy : y.1 = k <;> by_cases hx : x.1 = k
    · exact absurd (Or.inl (hy.trans hx.symm)) hnd.1
    · simp [hy, hx]
    · simp [hy, hx]
    · simp [hy, hx]
  | trans p q ihp ihq =>
    intro hnd
    have hnd2 := ((p.map Prod.fst).nodup_iff).mp hnd
    exact (ihp hnd).trans (ihq hnd2)

theorem foldl_dictUpdate_eq (k : String) :
    ∀ bs : List (List (String × EntryResult)),
      ∀ m : String → Option EntryResult,
      (bs.flatten.map Prod.fst).Nodup →
      (bs.foldl dictUpdate m) k =
        match lookupList k bs.flatten with
        | some v => some v
        | none => m k := by
  intro bs
  induction bs with
  | nil => intro m _; rfl
  | cons b rest ih =>
    intro m hnd
    rw [List.flatten_cons] at *
    rw [List.map_append, List.nodup_append] at hnd
    rw [List.foldl_cons, ih (dictUpdate m b) hnd.2.1]
    rw [lookupList_append]
    cases hb : lookupList k b with
    | none =>
      cases hr2 : lookupList k rest.flatten <;>
        simp [dictUpdate, hb, hr2]
    | some v =>
      cases hr2 : lookupList k rest.flatten with
      | none => simp [dictUpdate, hb, hr2]
      | some w =>
        exfalso
        exact hnd.2.2 (lookupList_mem k b v hb)
          (lookupList_mem k rest.flatten w hr2)

theorem accumulate_eq_lookup (bs : List (List (String × EntryResult)))
    (hnd : (bs.flatten.map Prod.fst).Nodup) (k : String) :
    accumulate bs k = lookupList k bs.flatten := by
  have h := foldl_dictUpdate_eq k bs emptyResults hnd
  rw [accumulate] at *
  rw [h]
  cases lookupList k bs.flatten <;> rfl

theorem forall₂_perm_flatten :
    ∀ l1 l2 : List (List (String × EntryResult)),
      List.Forall₂ List.Perm l1 l2 → l1.flatten.Perm l2.flatten := by
  intro l1 l2 h
  induction h with
  | nil => exact List.Perm.refl _
  | cons h1 _ ih =>
    simp only [List.flatten_cons]
    exact h1.append ih

theorem accumulate_none (k : String) :
    ∀ bs : List (List (String × EntryResult)),
      ∀ m : String → Option EntryResult,
      (∀ b ∈ bs, lookupList k b = none) →
      (bs.foldl dictUpdate m) k = m k := by
  intro bs
  induction bs with
  | nil => intro m _; rfl
  | cons b rest ih =>
    intro m h
    rw [List.foldl_cons, ih _ (fun b2 m2 => h b2 (List.mem_cons_of_mem _ m2))]
    simp [dictUpdate, h b (List.mem_cons_self _ _)]

theorem collect_loop
    (exec : List (String × String) → Option (List (String × EntryResult))) :
    ∀ batches : List (List (String × String)),
      ∀ m : String → Option EntryResult, ∀ n : Nat,
      (batches.foldl (collectStep exec) (m, n)).2
          = n + (batches.map List.length).sum ∧
      ∀ k, (batches.foldl (collectStep exec) (m, n)).1 k
          = ((batches.filterMap exec).foldl dictUpdate m) k := by
  intro batches
  induction batches with
  | nil => intro m n; exact ⟨by simp, fun _ => rfl⟩
  | cons b rest ih =>
    intro m n
    rw [List.foldl_cons, List.filterMap_cons]
    cases he : exec b with
    | some br =>
      have hih := ih (dictUpdate m br) (n + b.length)
      simp only [collectStep, he]
      constructor
      · rw [hih.1]
        simp only [List.map_cons, List.sum_cons]
        omega
      · intro k
        rw [hih.2 k, List.foldl_cons]
    | none =>
      have hih := ih m (n + b.length)
      simp only [collectStep, he]
      constructor
      · rw [hih.1]
        simp only [List.map_cons, List.sum_cons]
        omega
      · intro k
        exact hih.2 k

/-! ### Stage 1 on colon-free input, and batch partitioning -/

theorem qualTail_of_no_colon : ∀ l : List Char, ':' ∉ l → qualTail l = none := by
  intro l
  induction l with
  | nil => intro _; rfl
  | cons c rest ih =>
    intro h
    have hc : c ≠ ':' := by rintro rfl; exact h (List.mem_cons_self _ _)
    have hr : ':' ∉ rest := fun m => h (List.mem_cons_of_mem _ m)
    simp only [qualTail, ih hr]
    by_cases hnl : c = '\n'
    · simp [hnl]
    · simp only [hnl, if_false]
      cases rest with
      | nil => rfl
      | cons c2 rest2 =>
        cases rest2 with
        | nil => rfl
        | cons d r2 => simp [hc]

theorem dropNl_of_no_nl : ∀ l : List Char, '\n' ∉ l → dropNl l = none := by
  intro l
  induction l with
  | nil => intro _; rfl
  | cons c rest ih =>
    intro h
    have hc : c ≠ '\n' := by rintro rfl; exact h (List.mem_cons_self _ _)
    have hr : '\n' ∉ rest := fun m => h (List.mem_cons_of_mem _ m)
    simp [dropNl, hc, ih hr]

theorem searchQual_none (l : List Char) (h1 : ':' ∉ l) (h2 : '\n' ∉ l) :
    searchQual l = none := by
  have hq := qualTail_of_no_colon l h1
  have hd := dropNl_of_no_nl l h2
  rw [searchQual]
  cases l.length with
  | zero => rfl
  | succ n => simp [searchQualF, hq, hd]

theorem makeBatchesF_flatten {α : Type} (bs : Nat) (hbs : 1 ≤ bs) :
    ∀ fuel : Nat, ∀ l : List α, l.length ≤ fuel →
      (makeBatchesF bs fuel l).flatten = l := by
  intro fuel
  induction fuel with
  | zero =>
    intro l h
    have : l = [] := List.eq_nil_of_length_eq_zero (Nat.le_zero.mp h)
    subst this
    rfl
  | succ f ih =>
    intro l h
    cases l with
    | nil => rfl
    | cons x xs =>
      simp only [makeBatchesF, List.flatten_cons]
      rw [ih ((x :: xs).drop bs)
        (by rw [List.length_drop]; simp only [List.length_cons] at h ⊢; omega)]
      exact List.take_append_drop bs (x :: xs)

theorem makeBatches_flatten {α : Type} (bs : Nat) (hbs : 1 ≤ bs) (l : List α) :
    (makeBatches bs l).flatten = l :=
  makeBatchesF_flatten bs hbs l.length l (Nat.le_refl _)

theorem computeBatchSize_pos (t P : Nat) : 1 ≤ computeBatchSize t P :=
  Nat.le_trans (by omega) (Nat.le_max_left 10 (t / (P * 4)))

theorem entriesToProcess_keys_sublist :
    ∀ mapping : List (String × Entry),
      ((entriesToProcess mapping).map Prod.fst).Sublist
        (mapping.map Prod.fst) := by
  intro mapping
  induction mapping with
  | nil => exact List.Sublist.refl _
  | cons kv rest ih =>
    simp only [entriesToProcess, List.filterMap_cons] at *
    cases hf : kv.2.function_name with
    | none => exact List.Sublist.cons _ ih
    | some fn =>
      by_cases hfn : fn = ""
      · simp only [hfn, if_pos rfl]
        exact List.Sublist.cons _ ih
      · simp only [hfn, if_false, List.map_cons]
        exact List.Sublist.cons₂ _ ih

theorem process_batch_keys (cxxfilt : String → Option String)
    (b : List (String × String)) :
    (process_batch cxxfilt b).map Prod.fst = b.map Prod.fst := by
  simp [process_batch, List.map_map]

theorem orchestratorBatches_keys (cxxfilt : String → Option String)
    (mapping : List (String × Entry)) (P : Nat) :
    (orchestratorBatches cxxfilt mapping P).flatten.map Prod.fst
      = (entriesToProcess mapping).map Prod.fst := by
  rw [orchestratorBatches, List.map_flatten, List.map_map]
  have hcong : List.map (List.map Prod.fst ∘ process_batch cxxfilt)
      (makeBatches (computeBatchSize (entriesToProcess mapping).length P)
        (entriesToProcess mapping))
      = List.map (List.map Prod.fst)
        (makeBatches (computeBatchSize (entriesToProcess mapping).length P)
          (entriesToProcess mapping)) :=
    List.map_congr_left (fun b _ => process_batch_keys cxxfilt b)
  rw [hcong, ← List.map_flatten,
    makeBatches_flatten _ (computeBatchSize_pos _ _)]

theorem lookupList_mem_pair {α : Type} (k : String) :
    ∀ l : List (String × α), ∀ v : α,
      lookupList k l = some v → (k, v) ∈ l := by
  intro l
  induction l with
  | nil => intro v h; simp [lookupList] at h
  | cons p rest ih =>
    intro v h
    simp only [lookupList] at h
    by_cases hp : p.1 = k
    · subst hp
      rw [if_pos rfl] at h
      cases h
      exact List.mem_cons_self _ _
    · rw [if_neg hp] at h
      exact List.mem_cons_of_mem _ (ih v h)

theorem mergeEntry_fst (results : List (String × EntryResult))
    (kv : String × Entry) : (mergeEntry results kv).1 = kv.1 := by
  unfold mergeEntry
  cases lookupList kv.1 results with
  | none => rfl
  | some r =>
    by_cases hr : r.1.isSome = true
    · simp [hr]
    · simp [hr]

/-! ### Claim theorems -/

/-- C1: the claim says the Item Worker returns (fullName, bareName) with the
second component the bare identifier string itself.  The code stores the
whole pair returned by get_bare_function_name as the second component
(src/main.py line 31), so the Result is (fullName, (fullName, bareName));
this evaluation exhibits the nested pair at the failing input. -/
theorem C1_result_is_nested_pair :
    process_entry (fun s => if s = "_Z1fv" then some "f()" else none)
        (some "_Z1fv")
      = (some "f()", some ("f()", "f")) := by decide

/-- C2 counterexample: on "a(x)b(y)c" the code's greedy stage 2 removes from
the first opening parenthesis to the last closing one, yielding "ac", while
the claim's per-group removal (specStripParens, modelled from the spec's
words) yields "abc"; likewise for brackets in stage 4. -/
theorem C2_counterexample :
    subParens ("a(x)b(y)c".data) = "ac".data ∧
    specStripParens ("a(x)b(y)c".data) = "abc".data ∧
    subBrackets ("a[x]b[y]c".data) = "ac".data ∧
    specStripBrackets ("a[x]b[y]c".data) = "abc".data ∧
    "ac".data ≠ "abc".data := by decide

/-- C2 amended: stage 2 removes the single span from the first '(' to the
last ')' (within a newline-free stretch), and stage 4 likewise for
brackets; the text between two groups is removed, not retained. -/
theorem C2_amended :
    (∀ a b c : List Char, '(' ∉ a → '\n' ∉ b → ')' ∉ c →
      subParens (a ++ '(' :: (b ++ ')' :: c)) = a ++ c) ∧
    (∀ a b c : List Char, '[' ∉ a → '\n' ∉ b → ']' ∉ c →
      subBrackets (a ++ '[' :: (b ++ ']' :: c)) = a ++ c) := by
  constructor
  · intro a b c ha hb hc
    exact subGreedy_removes_span '(' ')' (by decide) a b c ha hb hc
  · intro a b c ha hb hc
    exact subGreedy_removes_span '[' ']' (by decide) a b c ha hb hc

theorem C2_amended_witness :
    subParens ("a".data ++ '(' :: ("x)b(y".data ++ ')' :: "c".data))
      = "a".data ++ "c".data ∧
    subBrackets ("a".data ++ '[' :: ("x]b[y".data ++ ']' :: "c".data))
      = "a".data ++ "c".data :=
  ⟨C2_amended.1 _ _ _ (by decide) (by decide) (by decide),
   C2_amended.2 _ _ _ (by decide) (by decide) (by decide)⟩

/-- C3 counterexample: when the only batch's executor faults, its item "k"
is NOT recorded in the global result map (lookup gives none, not a
failure-marker Result), although the progress counter advances by the
batch's size, refuting the claim's "recorded with a failure marker". -/
theorem C3_counterexample :
    (collectBatchResults (fun _ => none) [[("k", "s")]]).1 "k" = none ∧
    (collectBatchResults (fun _ => none) [[("k", "s")]]).2 = 1 := by
  constructor
  · rfl
  · rfl

/-- C3 amended: if a Batch Executor faults, the batch's items are simply
absent from the global ResultMap (the map equals the accumulation of the
non-faulting batches only), while the progress counter still advances by
every batch's item count and the loop continues over all batches. -/
theorem C3_amended
    (exec : List (String × String) → Option (List (String × EntryResult)))
    (batches : List (List (String × String))) :
    (collectBatchResults exec batches).2 = (batches.map List.length).sum ∧
    (∀ k, (collectBatchResults exec batches).1 k
        = accumulate (batches.filterMap exec) k) ∧
    (∀ k, (∀ br ∈ batches.filterMap exec, lookupList k br = none) →
        (collectBatchResults exec batches).1 k = none) := by
  have h := collect_loop exec batches emptyResults 0
  refine ⟨?_, fun k => h.2 k, ?_⟩
  · show (batches.foldl (collectStep exec) (emptyResults, 0)).2 = _
    rw [h.1]
    omega
  · intro k hall
    show (batches.foldl (collectStep exec) (emptyResults, 0)).1 k = none
    rw [h.2 k, accumulate_none k _ _ hall]
    rfl

/-- C4 counterexample: with the primitive failing on raw symbol "a<b>", the
fallback fullName is the raw symbol but bareName is the reduction "a", so
bareName differs from fullName, refuting bareName == fullName == rawSymbol
for every non-empty raw symbol. -/
theorem C4_counterexample :
    get_bare_function_name none "a<b>" = ("a<b>", "a") ∧
    ("a" : String) ≠ "a<b>" := by decide

/-- C4 amended: on primitive failure no exception propagates and fullName is
the raw symbol unchanged; bareName equals the raw symbol too whenever the
raw symbol contains none of the characters the reduction reacts to (':',
'(', '<', '[' or whitespace), the typical mangled-symbol case; otherwise
bareName is the reduction of the raw symbol and may differ from it. -/
theorem C4_amended (raw : String) (h1 : raw ≠ "")
    (h2 : ∀ c ∈ raw.data,
      c ≠ ':' ∧ c ≠ '(' ∧ c ≠ '<' ∧ c ≠ '[' ∧ pyWs c = false) :
    get_bare_function_name none raw = (raw, raw) := by
  have hcolon : ':' ∉ raw.data := fun m => (h2 _ m).1 rfl
  have hparen : '(' ∉ raw.data := fun m => (h2 _ m).2.1 rfl
  have hangle : '<' ∉ raw.data := fun m => (h2 _ m).2.2.1 rfl
  have hbr : '[' ∉ raw.data := fun m => (h2 _ m).2.2.2.1 rfl
  have hws : ∀ c ∈ raw.data, pyWs c = false := fun c m => (h2 c m).2.2.2.2
  have hnl : '\n' ∉ raw.data := fun m => absurd (hws _ m) (by decide)
  have hsq : searchQual raw.data = none := searchQual_none raw.data hcolon hnl
  have hstage : bareStages raw = raw.data := by
    rw [bareStages, hsq]
    show stages234 raw.data = raw.data
    rw [stages234]
    rw [show subParens raw.data = raw.data from
      subGreedy_of_not_mem_op '(' ')' _ hparen]
    rw [show subAngle raw.data = raw.data from
      subFirst_of_not_mem_op '<' '>' _ hangle]
    rw [show subBrackets raw.data = raw.data from
      subGreedy_of_not_mem_op '[' ']' _ hbr]
    exact trimWs_of_no_ws raw.data hws
  have hdata : raw.data ≠ [] := by
    intro he
    apply h1
    have hr : raw = String.mk raw.data := rfl
    rw [hr, he]
  show (raw, bareReduce raw) = (raw, raw)
  rw [bareReduce, hstage, if_neg hdata]

theorem C4_amended_witness :
    get_bare_function_name none "_Z1fv" = ("_Z1fv", "_Z1fv") :=
  C4_amended "_Z1fv" (by decide) (by decide)

/-- C5: the Orchestrator computes the batch size as
max(minBatchSize, totalItems / (P * batchFactor)) with minBatchSize = 10 and
batchFactor = 4, and the contiguous slices cover every eligible WorkItem
exactly once (their concatenation is the original sequence), for any P, T
and total count at least 1. -/
theorem C5_partition (entries : List (String × String)) (P T : Nat)
    (htotal : 1 ≤ entries.length) (hP : 1 ≤ P) :
    computeBatchSize entries.length P = max 10 (entries.length / (P * 4)) ∧
    (makeBatches (computeBatchSize entries.length P) entries).flatten
      = entries :=
  ⟨rfl, makeBatches_flatten _ (computeBatchSize_pos _ _) entries⟩

theorem C5_partition_witness :
    computeBatchSize
        ([("a", "s1"), ("b", "s2")] : List (String × String)).length 3
      = max 10
        ((([("a", "s1"), ("b", "s2")] : List (String × String)).length)
          / (3 * 4)) ∧
    (makeBatches
        (computeBatchSize
          ([("a", "s1"), ("b", "s2")] : List (String × String)).length 3)
        [("a", "s1"), ("b", "s2")]).flatten
      = [("a", "s1"), ("b", "s2")] :=
  C5_partition [("a", "s1"), ("b", "s2")] 3 2 (by decide) (by decide)

/-- C6: the merge step preserves the key sequence (hence cardinality and key
set); a record whose key carries a non-failure Result gets both derived
fields set (to the result's components, both present) with its raw field
unchanged, and every other record passes through identically.  The
hypothesis hwf states that results are well-formed as the system produces
them: a present first component comes with a present second component. -/
theorem C6_merge (mapping : List (String × Entry))
    (results : List (String × EntryResult))
    (hwf : ∀ p ∈ results, (p.2).1.isSome = true → (p.2).2.isSome = true) :
    (updateMapping results mapping).map Prod.fst = mapping.map Prod.fst ∧
    (updateMapping results mapping).length = mapping.length ∧
    updateMapping results mapping = mapping.map (mergeEntry results) ∧
    ∀ kv ∈ mapping,
      ((mergeEntry results kv).1 = kv.1) ∧
      (∀ r : EntryResult, lookupList kv.1 results = some r →
          r.1.isSome = true →
          (mergeEntry results kv).2.demangled_name = r.1 ∧
          (mergeEntry results kv).2.bare_name = r.2 ∧
          (mergeEntry results kv).2.demangled_name.isSome = true ∧
          (mergeEntry results kv).2.bare_name.isSome = true ∧
          (mergeEntry results kv).2.function_name = kv.2.function_name) ∧
      (∀ r : EntryResult, lookupList kv.1 results = some r →
          r.1.isSome = false → mergeEntry results kv = kv) ∧
      (lookupList kv.1 results = none → mergeEntry results kv = kv) := by
  refine ⟨?_, ?_, rfl, ?_⟩
  · rw [updateMapping, List.map_map]
    exact List.map_congr_left (fun kv _ => mergeEntry_fst results kv)
  · rw [updateMapping, List.length_map]
  · intro kv _
    refine ⟨mergeEntry_fst results kv, ?_, ?_, ?_⟩
    · intro r hlk hr1
      have hr2 := hwf (kv.1, r) (lookupList_mem_pair kv.1 results r hlk) hr1
      simp [mergeEntry, hlk, hr1, hr2]
    · intro r hlk hr1
      simp [mergeEntry, hlk, hr1]
    · intro hlk
      simp [mergeEntry, hlk]

theorem C6_merge_witness :
    (updateMapping [("a", (some "D", some ("D", "d")))]
        [("a", ⟨some "s", none, none⟩), ("b", ⟨none, none, none⟩)]).map
        Prod.fst
      = ["a", "b"] ∧
    (mergeEntry [("a", (some "D", some ("D", "d")))]
        ("a", ⟨some "s", none, none⟩)).2.demangled_name = some "D" ∧
    (mergeEntry [("a", (some "D", some ("D", "d")))]
        ("b", ⟨none, none, none⟩))
      = ("b", ⟨none, none, none⟩) := by
  have h := C6_merge
    [("a", ⟨some "s", none, none⟩), ("b", ⟨none, none, none⟩)]
    [("a", (some "D", some ("D", "d")))] (by decide)
  refine ⟨by rw [h.1]; rfl, ?_, ?_⟩
  · exact ((h.2.2.2 ("a", ⟨some "s", none, none⟩)
      (List.mem_cons_self _ _)).2.1 (some "D", some ("D", "d"))
      (by decide) rfl).1
  · exact (h.2.2.2 ("b", ⟨none, none, none⟩)
      (List.mem_cons_of_mem _ (List.mem_cons_self _ _))).2.2.2 (by decide)

/-- C7 counterexample: on the empty fullName (reachable when the primitive
output strips to the empty string) the returned bareName is the empty
string, refuting "for every fullName input the bareName is non-empty". -/
theorem C7_counterexample :
    get_bare_function_name (some "") "_Z3foov" = ("", "") := by decide

/-- C7 amended: for every NON-EMPTY fullName the bare-name reduction returns
a non-empty bareName (the empty-reduction fallback returns the fullName
itself, and a non-empty reduction is non-empty). -/
theorem C7_amended (d : String) (h : d ≠ "") : bareReduce d ≠ "" := by
  rw [bareReduce]
  by_cases he : bareStages d = []
  · simpa [he] using h
  · rw [if_neg he]
    intro hc
    apply he
    have hd : (String.mk (bareStages d)).data = ("" : String).data := by
      rw [hc]
    simpa using hd

theorem C7_amended_witness : bareReduce "x" ≠ "" :=
  C7_amended "x" (by decide)

/-- C8 counterexample: stages 2-4 with the trim are not idempotent on every
string: on "(<NEWLINE>)" the first pass removes the angle group (whose
negated class crosses the newline), producing "()", and a second pass
removes that new parenthesis pair, so reapplication changes the result. -/
theorem C8_counterexample :
    stages234 (stages234 ("(<\n>)".data)) ≠ stages234 ("(<\n>)".data) := by
  decide

/-- C8 amended: on every newline-free string (every string c++filt actually
hands over, since its output is one line) the composition of stages 2-4 and
the whitespace trim is idempotent. -/
theorem C8_idempotent_no_newline (l : List Char) (h : '\n' ∉ l) :
    stages234 (stages234 l) = stages234 l := by
  have s1 : (subParens l).Sublist l := subGreedy_sublist '(' ')' l
  have s2 : (subAngle (subParens l)).Sublist (subParens l) :=
    subFirst_sublist '<' '>' (subParens l)
  have s3 : (subBrackets (subAngle (subParens l))).Sublist
      (subAngle (subParens l)) :=
    subGreedy_sublist '[' ']' (subAngle (subParens l))
  have st : (trimWs (subBrackets (subAngle (subParens l)))).Sublist
      (subBrackets (subAngle (subParens l))) :=
    trimWs_sublist _
  have hnl1 : '\n' ∉ subParens l := fun m => h (s1.subset m)
  have hnl2 : '\n' ∉ subAngle (subParens l) := fun m => hnl1 (s2.subset m)
  have hP : ¬ (['(', ')'].Sublist (subParens l)) := subGreedy_inv '(' ')' l h
  have hA : ¬ (['<', '>'].Sublist (subAngle (subParens l))) :=
    subFirst_inv '<' '>' (subParens l)
  have hB : ¬ (['[', ']'].Sublist (subBrackets (subAngle (subParens l)))) :=
    subGreedy_inv '[' ']' (subAngle (subParens l)) hnl2
  have hfix1 : subParens (stages234 l) = stages234 l :=
    subGreedy_fix '(' ')' _
      (fun hh => hP (hh.trans ((st.trans s3).trans s2)))
  have hfix2 : subAngle (stages234 l) = stages234 l :=
    subFirst_fix '<' '>' _ (fun hh => hA (hh.trans (st.trans s3)))
  have hfix3 : subBrackets (stages234 l) = stages234 l :=
    subGreedy_fix '[' ']' _ (fun hh => hB (hh.trans st))
  show trimWs (subBrackets (subAngle (subParens (stages234 l))))
      = stages234 l
  rw [hfix1, hfix2, hfix3]
  exact trimWs_idem _

theorem C8_idempotent_witness :
    stages234 (stages234 ("ab::cd<e>(f)g".data))
      = stages234 ("ab::cd<e>(f)g".data) :=
  C8_idempotent_no_newline _ (by decide)

/-- C9: for a fixed record set and fixed P and T, the content of the global
ResultMap is independent of the order in which batches complete and in
which items inside each batch complete: accumulating any reordering bs2 of
the canonical batch results (outer permutation composed with per-batch
permutations) yields the same map content at every key. -/
theorem C9_order_independence (cxxfilt : String → Option String)
    (mapping : List (String × Entry)) (P T : Nat)
    (hnd : (mapping.map Prod.fst).Nodup)
    (bs2 : List (List (String × EntryResult)))
    (hperm : ∃ mid, (orchestratorBatches cxxfilt mapping P).Perm mid ∧
        List.Forall₂ List.Perm mid bs2) :
    ∀ k, accumulate bs2 k
        = accumulate (orchestratorBatches cxxfilt mapping P) k := by
  obtain ⟨mid, hp1, hp2⟩ := hperm
  have hjoin : (orchestratorBatches cxxfilt mapping P).flatten.Perm
      bs2.flatten :=
    (hp1.flatten).trans (forall₂_perm_flatten mid bs2 hp2)
  have hnd1 : ((orchestratorBatches cxxfilt mapping P).flatten.map
      Prod.fst).Nodup := by
    rw [orchestratorBatches_keys]
    exact List.Nodup.sublist (entriesToProcess_keys_sublist mapping) hnd
  have hnd2 : (bs2.flatten.map Prod.fst).Nodup :=
    ((hjoin.map Prod.fst).nodup_iff).mp hnd1
  intro k
  rw [accumulate_eq_lookup bs2 hnd2 k, accumulate_eq_lookup _ hnd1 k]
  exact (lookupList_perm k _ _ hjoin hnd1).symm

theorem C9_witness :
    accumulate [[("b", process_entry (fun _ => none) (some "t")),
        ("a", process_entry (fun _ => none) (some "s"))]] "a"
      = accumulate (orchestratorBatches (fun _ => none)
          [("a", ⟨some "s", none, none⟩), ("b", ⟨some "t", none, none⟩)]
          1) "a" :=
  C9_order_independence (fun _ => none)
    [("a", ⟨some "s", none, none⟩), ("b", ⟨some "t", none, none⟩)] 1 1
    (by decide)
    [[("b", process_entry (fun _ => none) (some "t")),
      ("a", process_entry (fun _ => none) (some "s"))]]
    ⟨[[("a", process_entry (fun _ => none) (some "s")),
        ("b", process_entry (fun _ => none) (some "t"))]],
      by decide, List.Forall₂.cons (by decide) List.Forall₂.nil⟩
    "a"

/-- C10: a falsy raw symbol (absent, or the empty string) makes the Item
Worker return the failure marker (None, None) immediately; the result is
the same for every oracle, which models that the external primitive is not
invoked at all. -/
theorem C10_falsy (cxxfilt : String → Option String) (fn : Option String)
    (h : fn = none ∨ fn = some "") :
    process_entry cxxfilt fn = (none, none) := by
  rcases h with h | h <;> subst h <;> simp [process_entry]

theorem C10_falsy_witness :
    process_entry (fun s => some (s ++ "X")) (some "") = (none, none) :=
  C10_falsy (fun s => some (s ++ "X")) (some "") (Or.inr rfl)
